import Mathlib

/-!
Shallow embedding of the lin_alg matrix library (src/core.rs and
src/decomposition.rs) over the rationals, which model exact real
arithmetic; every concrete input used below is exactly representable
in binary floating point, so the rational traces coincide with the
f64 traces of the source.
-/

namespace LinAlg

/-- Entry access with the out-of-range default 0, matching in-range
indexing in the source (indexing there is only performed in range). -/
def idx (m : List (List ℚ)) (i j : ℕ) : ℚ :=
  (m.getD i []).getD j 0

/-- Write a single entry, as in `m[i][j] = v`. -/
def setIdx (m : List (List ℚ)) (i j : ℕ) (v : ℚ) : List (List ℚ) :=
  m.set i ((m.getD i []).set j v)

/-- Matrix struct of src/core.rs: contents with explicit length `l`
and width `w` fields. -/
structure Matrix where
  contents : List (List ℚ)
  l : ℕ
  w : ℕ
deriving DecidableEq, Repr

/-- Contents of the identity matrix built by `Matrix::identity`:
row `i` is a zero row with a 1 written at position `i`. -/
def identityContents (n : ℕ) : List (List ℚ) :=
  (List.range n).map (fun i => (List.replicate n (0 : ℚ)).set i 1)

/-- `Matrix::new`: fails on an empty row sequence, fails when a row
length differs from the first row, otherwise stores the rows. -/
def Matrix.new (inner : List (List ℚ)) : Option Matrix :=
  match inner with
  | [] => none
  | t :: _ =>
    if inner.all (fun r => r.length = t.length) then
      some ⟨inner, inner.length, t.length⟩
    else none

/-- `Matrix::identity`. -/
def Matrix.identity (n : ℕ) : Matrix :=
  ⟨identityContents n, n, n⟩

/-- `Matrix::blank`: an `l × w` matrix of zeros. -/
def Matrix.blank (l w : ℕ) : Matrix :=
  ⟨List.replicate l (List.replicate w (0 : ℚ)), l, w⟩

/-- `impl Add for Matrix`: the assert of the source is modelled as
`none`; on matching dimensions each entry of the clone of `self` gets
the corresponding entry of `rhs` added, so entry (i,j) of the result
is `self[i][j] + rhs[i][j]`. -/
def Matrix.add (a b : Matrix) : Option Matrix :=
  if a.l = b.l ∧ a.w = b.w then
    some ⟨(List.range a.l).map (fun i =>
            (List.range a.w).map (fun j =>
              idx a.contents i j + idx b.contents i j)),
          a.l, a.w⟩
  else none

/-- `impl Mul<Matrix> for Matrix`: the assert is modelled as `none`;
entry (i,j) is the fold `Σ_t self[i][t] * rhs[t][j]` over `0..self.w`
exactly as in the source. -/
def Matrix.mul (a b : Matrix) : Option Matrix :=
  if a.w = b.l then
    some ⟨(List.range a.l).map (fun i =>
            (List.range b.w).map (fun j =>
              (List.range a.w).foldl
                (fun acc t => acc + idx a.contents i t * idx b.contents t j) 0)),
          a.l, b.w⟩
  else none

/-- `impl Mul<T> for Matrix` (scalar): every entry is multiplied by
the scalar. -/
def Matrix.smul (a : Matrix) (c : ℚ) : Matrix :=
  ⟨(List.range a.l).map (fun i =>
      (List.range a.w).map (fun j => idx a.contents i j * c)),
   a.l, a.w⟩

/-- `impl Div<T> for Matrix`: `self * (1 / rhs)`. -/
def Matrix.div (a : Matrix) (c : ℚ) : Matrix :=
  a.smul (1 / c)

/-- Body of the inner loop of `lu_decompose` for one row `below` the
pivot row `r`: if the entry `scale2` in column `r` is zero the row is
skipped, otherwise the row is rebuilt as `r+1` zeros followed by
`entry - scale2 * pivot_row_entry` (zipping with the tail `short` of
the scaled pivot row), and `scale2` is recorded at lower[below][r]. -/
def elimRowStep (r : ℕ) (short : List ℚ) (st2 : List (List ℚ) × List (List ℚ))
    (below : ℕ) : List (List ℚ) × List (List ℚ) :=
  let scale2 := idx st2.1 below r
  if scale2 = 0 then st2
  else
    let newRow :=
      List.replicate (r + 1) (0 : ℚ) ++
        (((st2.1.getD below []).drop (r + 1)).zip short).map
          (fun p => p.1 - scale2 * p.2)
    (st2.1.set below newRow, setIdx st2.2 below r scale2)

/-- One pivot step of `lu_decompose` at pivot row `r` on the pair
(upper, lower), without the zero-pivot check: scale row `r` of upper
by `1/scale`, record `scale` at lower[r][r], then run `elimRowStep`
over every row below `r`. -/
def pivotStep (n r : ℕ) (st : List (List ℚ) × List (List ℚ)) :
    List (List ℚ) × List (List ℚ) :=
  let scale := idx st.1 r r
  let u1 := st.1.set r ((st.1.getD r []).map (fun t => t / scale))
  let lo1 := setIdx st.2 r r scale
  let shortRowUpper := (u1.getD r []).drop (r + 1)
  (List.range' (r + 1) (n - (r + 1))).foldl (elimRowStep r shortRowUpper) (u1, lo1)

/-- The main loop of `lu_decompose` over the remaining pivot rows:
return `none` as soon as a pivot is exactly zero, otherwise perform
the pivot step and continue. -/
def luLoop (n : ℕ) : List ℕ → List (List ℚ) × List (List ℚ) →
    Option (List (List ℚ) × List (List ℚ))
  | [], st => some st
  | r :: rs, st =>
    if idx st.1 r r = 0 then none
    else luLoop n rs (pivotStep n r st)

/-- `Matrix::lu_decompose`: `none` on non-square input, otherwise run
the elimination loop on (clone of self, identity) and wrap the final
(lower, upper) pair. -/
def Matrix.lu_decompose (m : Matrix) : Option (Matrix × Matrix) :=
  if m.l ≠ m.w then none
  else
    match luLoop m.l (List.range m.l) (m.contents, identityContents m.l) with
    | none => none
    | some (u, lo) => some (⟨lo, m.l, m.w⟩, ⟨u, m.l, m.w⟩)

/-- The 2-element combinations of `0..n` in the lexicographic order
produced by itertools: (0,1), (0,2), ..., (0,n-1), (1,2), ... -/
def combos (n : ℕ) : List (ℕ × ℕ) :=
  (List.range n).flatMap (fun i => ((List.range n).drop (i + 1)).map (fun j => (i, j)))

/-- Swap rows `i` and `j`, in the write order of the source
(`out[j] = row_i` then `out[i] = row_j`). -/
def swapRows (m : List (List ℚ)) (i j : ℕ) : List (List ℚ) :=
  let ri := m.getD i []
  let rj := m.getD j []
  (m.set j ri).set i rj

/-- The permutation matrix built inside the fallback loop: the
identity with rows `i` and `j` swapped. -/
def permMatrix (n i j : ℕ) : Matrix :=
  ⟨swapRows (identityContents n) i j, n, n⟩

/-- The fallback loop of `plu_decomposition`.  The working contents
`out` persist across iterations of the source loop: each combination
swaps two rows of the current `out` (swaps from earlier failed
attempts are NOT undone) and retries `lu_decompose`. -/
def pluLoop (n : ℕ) : List (ℕ × ℕ) → List (List ℚ) →
    Option (Matrix × Matrix × Matrix)
  | [], _ => none
  | (i, j) :: rest, out =>
    let out2 := swapRows out i j
    match Matrix.lu_decompose ⟨out2, n, n⟩ with
    | some (lo, u) => some (lo, u, permMatrix n i j)
    | none => pluLoop n rest out2

/-- `Matrix::plu_decomposition`: `none` on non-square input; first try
`lu_decompose` directly (returning the identity permutation), else run
the fallback loop over all 2-combinations of `0..w`. -/
def Matrix.plu_decomposition (m : Matrix) : Option (Matrix × Matrix × Matrix) :=
  if m.l ≠ m.w then none
  else
    match Matrix.lu_decompose m with
    | some (lo, u) => some (lo, u, Matrix.identity m.l)
    | none => pluLoop m.l (combos m.w) m.contents

/-- Rectangularity invariant of the Matrix struct: exactly `l` rows,
each of length exactly `w`. -/
def WF (m : Matrix) : Prop :=
  m.contents.length = m.l ∧ ∀ row ∈ m.contents, row.length = m.w

instance (m : Matrix) : Decidable (WF m) := by
  unfold WF; infer_instance

/-- Iterated pivot steps: starting at pivot row `k`, perform `j`
consecutive unchecked pivot steps (rows `k, k+1, ..., k+j-1`). -/
def iterSteps (n : ℕ) : ℕ → ℕ → List (List ℚ) × List (List ℚ) →
    List (List ℚ) × List (List ℚ)
  | _, 0, st => st
  | k, j + 1, st => iterSteps n (k + 1) j (pivotStep n k st)

/-- The elimination state of `lu_decompose` on `m` after the pivot
steps for rows `0..r` have run (ignoring zero-pivot aborts). -/
def elimState (m : Matrix) (r : ℕ) : List (List ℚ) × List (List ℚ) :=
  iterSteps m.l 0 r (m.contents, identityContents m.l)

/-- The pivot value read by `lu_decompose` at the start of step `r`:
entry (r, r) of the working upper matrix at that point. -/
def pivotAt (m : Matrix) (r : ℕ) : ℚ :=
  idx (elimState m r).1 r r

/-- Both working matrices of the elimination have `n` rows of length
`n` each. -/
def Shapes (n : ℕ) (st : List (List ℚ) × List (List ℚ)) : Prop :=
  st.1.length = n ∧ (∀ row ∈ st.1, row.length = n) ∧
  st.2.length = n ∧ (∀ row ∈ st.2, row.length = n)

/-- Entry (i, j) of the product of two n-by-n matrices. -/
def prodEntry (L U : List (List ℚ)) (n i j : ℕ) : ℚ :=
  ∑ t ∈ Finset.range n, idx L i t * idx U t j

/-- Invariant of the outer elimination loop before step `k`: shapes
are preserved, lower times upper stays equal to the input, the
columns of lower from `k` on are still identity columns, and the rows
of upper from `k` on are zero left of column `k`. -/
def ElimInv (M : List (List ℚ)) (n k : ℕ) (st : List (List ℚ) × List (List ℚ)) : Prop :=
  Shapes n st ∧
  (∀ i < n, ∀ j < n, prodEntry st.2 st.1 n i j = idx M i j) ∧
  (∀ i < n, ∀ t, k ≤ t → t < n → idx st.2 i t = if i = t then 1 else 0) ∧
  (∀ i, k ≤ i → i < n → ∀ j < k, idx st.1 i j = 0)

/-- Invariant of the inner elimination loop of pivot step `k` before
processing row `b`: shapes and the product are preserved; columns of
lower right of `k` are identity columns and column `k` of lower is
still zero in the unprocessed rows; row `k` of upper is zero left of
`k` with a 1 at `k`; unprocessed rows of upper are zero left of `k`
and processed rows are zero through column `k`; `short` is the tail
of the scaled pivot row. -/
def InnerInv (M : List (List ℚ)) (n k : ℕ) (short : List ℚ) (b : ℕ)
    (st : List (List ℚ) × List (List ℚ)) : Prop :=
  Shapes n st ∧
  (∀ i < n, ∀ j < n, prodEntry st.2 st.1 n i j = idx M i j) ∧
  (∀ i < n, ∀ t, k < t → t < n → idx st.2 i t = if i = t then 1 else 0) ∧
  (∀ i, b ≤ i → i < n → idx st.2 i k = 0) ∧
  (∀ j < k, idx st.1 k j = 0) ∧
  idx st.1 k k = 1 ∧
  (∀ i, b ≤ i → i < n → ∀ j < k, idx st.1 i j = 0) ∧
  (∀ i, k < i → i < b → ∀ j, j ≤ k → idx st.1 i j = 0) ∧
  short.length = n - (k + 1) ∧
  (∀ j, k + 1 ≤ j → j < n → short.getD (j - (k + 1)) 0 = idx st.1 k j)

/-- The worked example of the spec, M = [[4,3],[6,3]]. -/
def mEx : Matrix := ⟨[[4, 3], [6, 3]], 2, 2⟩

/-- The antidiagonal permutation matrix, as a 3x3 input whose rows
must be reordered before elimination can start. -/
def mCycle : Matrix := ⟨[[0, 0, 1], [0, 1, 0], [1, 0, 0]], 3, 3⟩

/-- A 3x3 matrix whose only pivotable row ordering is the 3-cycle
that moves row 2 to the top: no single transposition of its rows (nor
the original order) admits an LU decomposition, yet the cumulative
swaps of the fallback loop reach the pivotable ordering. -/
def mThreeCycleHit : Matrix := ⟨[[0, 1, 0], [0, 0, 1], [1, 0, 0]], 3, 3⟩

/-- A 3x3 matrix whose only pivotable row ordering is the other
3-cycle; the fallback loop never reaches it. -/
def mThreeCycleMiss : Matrix := ⟨[[0, 0, 1], [1, 0, 0], [0, 1, 0]], 3, 3⟩

end LinAlg

namespace LinAlg

/-- C1: the claim states that `plu_decomposition` returns `None` or a
triple (L, U, P) with L*U = P*M.  On the antidiagonal input the code
returns Some((I, I, P)) where P swaps rows 1 and 2, because the row
swaps of earlier failed fallback attempts stay in the working matrix
while the returned permutation only records the last swap; there
L*U = I but P*M differs from I, so the product identity fails. -/
theorem c1_plu_product_mismatch :
    mCycle.plu_decomposition =
      some (Matrix.identity 3, Matrix.identity 3, permMatrix 3 1 2) ∧
    (Matrix.identity 3).mul (Matrix.identity 3) ≠ (permMatrix 3 1 2).mul mCycle := by
  with_unfolding_all decide

/-- C3: the claim states that each fallback attempt of
`plu_decomposition` hands `lu_decompose` a fresh copy of the original
with exactly rows i and j swapped.  On the antidiagonal input the
loop succeeds at combination (1,2), yet the fresh swap of rows 1 and
2 of the original has no LU decomposition: the matrix actually handed
over carried the swaps of the earlier failed attempts. -/
theorem c3_swaps_accumulate :
    mCycle.plu_decomposition =
      some (Matrix.identity 3, Matrix.identity 3, permMatrix 3 1 2) ∧
    Matrix.lu_decompose ⟨swapRows mCycle.contents 1 2, 3, 3⟩ = none := by
  with_unfolding_all decide

/-- C4 counterexample: on M = [[4,3],[6,3]] the code does not return
the pair claimed by the spec (L = [[4,0],[6,1]], U = [[1,3/4],[0,-3/2]]),
because the final pivot step also scales the last row and moves the
pivot -3/2 into the diagonal of L. -/
theorem c4_counterexample :
    mEx.lu_decompose ≠
      some (⟨[[4, 0], [6, 1]], 2, 2⟩, ⟨[[1, 3/4], [0, -3/2]], 2, 2⟩) := by
  with_unfolding_all decide

/-- C4 amended: on M = [[4,3],[6,3]], `lu_decompose` returns
L = [[4,0],[6,-3/2]] and U = [[1,3/4],[0,1]]. -/
theorem c4_lu_values :
    mEx.lu_decompose =
      some (⟨[[4, 0], [6, -3/2]], 2, 2⟩, ⟨[[1, 3/4], [0, 1]], 2, 2⟩) := by
  with_unfolding_all decide

/-- C5 counterexample: mThreeCycleHit satisfies the hypothesis of the
claim — neither the original row order nor any single transposition
of it is pivotable (the four lu failures below), while a valid PLU
factorization exists (P*M = I with P the 3-cycle permutation matrix
mThreeCycleMiss, and I decomposes) — yet `plu_decomposition` does not
return `None`: the accumulated swaps of the fallback loop reach the
3-cycle ordering. -/
theorem c5_counterexample :
    mThreeCycleHit.lu_decompose = none ∧
    Matrix.lu_decompose ⟨swapRows mThreeCycleHit.contents 0 1, 3, 3⟩ = none ∧
    Matrix.lu_decompose ⟨swapRows mThreeCycleHit.contents 0 2, 3, 3⟩ = none ∧
    Matrix.lu_decompose ⟨swapRows mThreeCycleHit.contents 1 2, 3, 3⟩ = none ∧
    mThreeCycleMiss.mul mThreeCycleHit = some (Matrix.identity 3) ∧
    (Matrix.identity 3).lu_decompose ≠ none ∧
    mThreeCycleHit.plu_decomposition ≠ none := by
  with_unfolding_all decide

/-- C5 amended: the fallback search is incomplete but not limited to
single transpositions.  mThreeCycleHit needs a 3-cycle and is
decomposed anyway (with a merely single-swap permutation matrix
reported), while mThreeCycleMiss needs the other 3-cycle — its
original order and every single transposition of it fail, a valid PLU
exists (P*M = I with P = mThreeCycleHit) — and it reports `None`. -/
theorem c5_amended_fallback_reach :
    mThreeCycleHit.plu_decomposition =
      some (Matrix.identity 3, Matrix.identity 3, permMatrix 3 0 2) ∧
    mThreeCycleMiss.plu_decomposition = none ∧
    Matrix.lu_decompose ⟨swapRows mThreeCycleMiss.contents 0 1, 3, 3⟩ = none ∧
    Matrix.lu_decompose ⟨swapRows mThreeCycleMiss.contents 0 2, 3, 3⟩ = none ∧
    Matrix.lu_decompose ⟨swapRows mThreeCycleMiss.contents 1 2, 3, 3⟩ = none ∧
    mThreeCycleHit.mul mThreeCycleMiss = some (Matrix.identity 3) := by
  with_unfolding_all decide

/-- C6 counterexample: the claim states that construction from an
empty row sequence succeeds with a zero-dimension matrix; the code
returns `None` for the empty input. -/
theorem c6_counterexample : Matrix.new ([] : List (List ℚ)) = none := by
  with_unfolding_all decide

/-- C6 amended: construction from an empty sequence of rows fails
(returns None), and construction from rows of differing lengths also
fails (returns None). -/
theorem c6_construction_failures :
    Matrix.new ([] : List (List ℚ)) = none ∧
    ∀ (inner : List (List ℚ)) (r : List ℚ), r ∈ inner →
      r.length ≠ (inner.headD []).length → Matrix.new inner = none := by
  refine ⟨rfl, ?_⟩
  intro inner r hr hne
  cases inner with
  | nil => rfl
  | cons t rest =>
    simp only [List.headD_cons] at hne
    have hall : ¬((t :: rest).all fun row => decide (row.length = t.length)) = true := by
      rw [List.all_eq_true]
      intro h
      exact hne (by simpa using h r hr)
    simp [Matrix.new, hall]

/-- Witness for C6: a concrete ragged input is rejected. -/
theorem c6_witness : Matrix.new ([[1], [2, 3]] : List (List ℚ)) = none :=
  c6_construction_failures.2 [[1], [2, 3]] [2, 3] (by decide) (by decide)

/-- C8: `add` refuses exactly the inputs with mismatched row or
column counts and `mul` refuses exactly those where the width of the
left factor differs from the height of the right one (the `none`
result models the assert of the source, which panics rather than
returning a recoverable error); on matching dimensions the guard
passes and a result matrix is produced. -/
theorem c8_dim_guards (a b : Matrix) :
    (Matrix.add a b = none ↔ ¬(a.l = b.l ∧ a.w = b.w)) ∧
    (Matrix.mul a b = none ↔ a.w ≠ b.l) := by
  unfold Matrix.add Matrix.mul
  constructor <;> split <;> simp_all

/-- Witness for C8 at concrete dimension mismatches. -/
theorem c8_witness :
    Matrix.add (Matrix.blank 2 3) (Matrix.blank 3 2) = none ∧
    Matrix.mul (Matrix.blank 2 3) (Matrix.blank 2 3) = none :=
  ⟨(c8_dim_guards (Matrix.blank 2 3) (Matrix.blank 3 2)).1.mpr (by decide),
   (c8_dim_guards (Matrix.blank 2 3) (Matrix.blank 2 3)).2.mpr (by decide)⟩

/-! Index bookkeeping lemmas for the entry accessor `idx`. -/

lemma idx_of_getElem? (m : List (List ℚ)) (i j : ℕ) :
    idx m i j = ((m[i]?.getD [])[j]?).getD 0 := by
  simp [idx, List.getD_eq_getElem?_getD]

lemma idx_of_le (m : List (List ℚ)) {i : ℕ} (j : ℕ) (h : m.length ≤ i) :
    idx m i j = 0 := by
  simp [idx_of_getElem?, List.getElem?_eq_none h]

lemma getD_map_div (l : List ℚ) (s : ℚ) {j : ℕ} (h : j < l.length) :
    ((l.map (fun t => t / s)).getD j 0) = l.getD j 0 / s := by
  simp [List.getD_eq_getElem?_getD, List.getElem?_map, List.getElem?_eq_getElem h]

lemma idx_set_ne (m : List (List ℚ)) (r : ℕ) (row : List ℚ) {i : ℕ} (j : ℕ)
    (h : i ≠ r) : idx (m.set r row) i j = idx m i j := by
  simp [idx_of_getElem?, List.getElem?_set, Ne.symm h]

lemma idx_set_self (m : List (List ℚ)) {r : ℕ} (row : List ℚ) (j : ℕ)
    (h : r < m.length) : idx (m.set r row) r j = row.getD j 0 := by
  simp [idx_of_getElem?, List.getElem?_set, h, List.getD_eq_getElem?_getD]

lemma idx_setIdx_row_ne (m : List (List ℚ)) (r c : ℕ) (v : ℚ) {i : ℕ} (j : ℕ)
    (h : i ≠ r) : idx (setIdx m r c v) i j = idx m i j :=
  idx_set_ne m r _ j h

lemma idx_setIdx_col_ne (m : List (List ℚ)) (r c : ℕ) (v : ℚ) (i : ℕ) {j : ℕ}
    (h : j ≠ c) : idx (setIdx m r c v) i j = idx m i j := by
  by_cases hi : i = r
  · subst hi
    by_cases hl : i < m.length
    · rw [setIdx, idx_set_self m _ j hl, idx]
      simp [List.getD_eq_getElem?_getD, List.getElem?_set, Ne.symm h]
    · rw [setIdx, List.set_eq_of_length_le (by omega)]
  · exact idx_set_ne m r _ j hi

lemma idx_setIdx_self (m : List (List ℚ)) {r c : ℕ} (v : ℚ)
    (hr : r < m.length) (hc : c < (m.getD r []).length) :
    idx (setIdx m r c v) r c = v := by
  rw [setIdx, idx_set_self m _ c hr, List.getD_eq_getElem?_getD, List.getElem?_set,
    if_pos rfl, if_pos hc]
  simp

lemma length_setIdx (m : List (List ℚ)) (r c : ℕ) (v : ℚ) :
    (setIdx m r c v).length = m.length := by
  simp [setIdx]

lemma getD_grid_row {l w : ℕ} (f : ℕ → ℕ → ℚ) {i : ℕ} (h : i < l) :
    (((List.range l).map (fun i => (List.range w).map (fun j => f i j))).getD i []) =
      (List.range w).map (fun j => f i j) := by
  simp [List.getD_eq_getElem?_getD, List.getElem?_map, List.getElem?_range h]

lemma getD_map_range (w : ℕ) (g : ℕ → ℚ) {j : ℕ} (h : j < w) :
    (((List.range w).map g).getD j 0) = g j := by
  simp [List.getD_eq_getElem?_getD, List.getElem?_map, List.getElem?_range h]

lemma idx_grid {l w : ℕ} (f : ℕ → ℕ → ℚ) {i j : ℕ} (hi : i < l) (hj : j < w) :
    idx ((List.range l).map (fun i => (List.range w).map (fun j => f i j))) i j =
      f i j := by
  rw [idx, getD_grid_row f hi, getD_map_range w _ hj]

lemma grid_congr {l w : ℕ} {f g : ℕ → ℕ → ℚ}
    (h : ∀ i < l, ∀ j < w, f i j = g i j) :
    (List.range l).map (fun i => (List.range w).map (fun j => f i j)) =
      (List.range l).map (fun i => (List.range w).map (fun j => g i j)) := by
  apply List.map_congr_left
  intro i hi
  apply List.map_congr_left
  intro j hj
  exact h i (List.mem_range.mp hi) j (List.mem_range.mp hj)

lemma grid_WF (l w : ℕ) (f : ℕ → ℕ → ℚ) :
    WF ⟨(List.range l).map (fun i => (List.range w).map (fun j => f i j)), l, w⟩ := by
  constructor
  · simp
  · intro row hrow
    simp only [List.mem_map] at hrow
    obtain ⟨i, _, rfl⟩ := hrow
    simp

lemma identityContents_length (n : ℕ) : (identityContents n).length = n := by
  simp [identityContents]

lemma identityContents_row_length {n : ℕ} (row : List ℚ)
    (h : row ∈ identityContents n) : row.length = n := by
  simp only [identityContents, List.mem_map] at h
  obtain ⟨i, _, rfl⟩ := h
  simp

lemma idx_identityContents {n i j : ℕ} (hi : i < n) (hj : j < n) :
    idx (identityContents n) i j = if i = j then 1 else 0 := by
  rw [identityContents, idx]
  have : (((List.range n).map fun i => (List.replicate n (0 : ℚ)).set i 1).getD i []) =
      (List.replicate n (0 : ℚ)).set i 1 := by
    simp [List.getD_eq_getElem?_getD, List.getElem?_map, List.getElem?_range hi]
  rw [this]
  simp only [List.getD_eq_getElem?_getD, List.getElem?_set, List.length_replicate,
    List.getElem?_replicate]
  by_cases hij : i = j
  · simp [hij, hj]
  · simp [hij, hj]

lemma foldl_add_eq_sum (f : ℕ → ℚ) : ∀ (n : ℕ) (c : ℚ),
    (List.range n).foldl (fun acc t => acc + f t) c = c + ∑ t ∈ Finset.range n, f t := by
  intro n
  induction n with
  | zero => simp
  | succ n ih =>
    intro c
    rw [List.range_succ, List.foldl_append, ih, Finset.sum_range_succ]
    simp [add_assoc]

/-! Shape preservation through the elimination and fallback loops. -/

lemma getD_row_length {m : List (List ℚ)} {n : ℕ} (hlen : m.length = n)
    (h : ∀ row ∈ m, row.length = n) {r : ℕ} (hr : r < n) :
    (m.getD r []).length = n := by
  have hr2 : r < m.length := by omega
  have e : m.getD r [] = m[r] := by
    simp [List.getD_eq_getElem?_getD, List.getElem?_eq_getElem hr2]
  rw [e]
  exact h _ (List.getElem_mem hr2)

lemma rows_set_length {m : List (List ℚ)} {n : ℕ} (h : ∀ row ∈ m, row.length = n)
    {newRow : List ℚ} (hn : newRow.length = n) (r : ℕ) :
    ∀ row ∈ m.set r newRow, row.length = n := by
  intro row hrow
  rcases List.mem_or_eq_of_mem_set hrow with h1 | rfl
  · exact h row h1
  · exact hn

lemma rows_setIdx_length {m : List (List ℚ)} {n : ℕ} (hlen : m.length = n)
    (h : ∀ row ∈ m, row.length = n) {r : ℕ} (c : ℕ) (v : ℚ) (hr : r < n) :
    ∀ row ∈ setIdx m r c v, row.length = n := by
  apply rows_set_length h
  rw [List.length_set]
  exact getD_row_length hlen h hr

lemma elimRowStep_shapes {n r : ℕ} {short : List ℚ}
    (hshort : short.length = n - (r + 1)) (hr : r < n) {st2} (h : Shapes n st2)
    {below : ℕ} (_hb1 : r < below) (hb2 : below < n) :
    Shapes n (elimRowStep r short st2 below) := by
  obtain ⟨h1, h2, h3, h4⟩ := h
  rw [elimRowStep]
  by_cases hz : idx st2.1 below r = 0
  · simp only [if_pos hz]
    exact ⟨h1, h2, h3, h4⟩
  · simp only [if_neg hz]
    have hrowlen : (st2.1.getD below []).length = n := getD_row_length h1 h2 hb2
    have hnewlen :
        (List.replicate (r + 1) (0 : ℚ) ++
          (((st2.1.getD below []).drop (r + 1)).zip short).map
            (fun p => p.1 - idx st2.1 below r * p.2)).length = n := by
      simp only [List.length_append, List.length_replicate, List.length_map,
        List.length_zip, List.length_drop, hrowlen, hshort, inf_idem]
      omega
    refine ⟨by simpa using h1, rows_set_length h2 hnewlen below, by simp [length_setIdx, h3],
      rows_setIdx_length h3 h4 r _ hb2⟩

lemma foldl_elimRowStep_shapes {n r : ℕ} {short : List ℚ}
    (hshort : short.length = n - (r + 1)) (hr : r < n) :
    ∀ (l : List ℕ) (st2 : List (List ℚ) × List (List ℚ)),
      (∀ b ∈ l, r < b ∧ b < n) → Shapes n st2 →
      Shapes n (l.foldl (elimRowStep r short) st2) := by
  intro l
  induction l with
  | nil => intro st2 _ h; exact h
  | cons b rest ih =>
    intro st2 hb h
    rw [List.foldl_cons]
    exact ih _ (fun x hx => hb x (List.mem_cons_of_mem b hx))
      (elimRowStep_shapes hshort hr h (hb b (List.mem_cons_self b rest)).1
        (hb b (List.mem_cons_self b rest)).2)

lemma pivotStep_shapes {n r : ℕ} (hr : r < n) {st} (h : Shapes n st) :
    Shapes n (pivotStep n r st) := by
  obtain ⟨h1, h2, h3, h4⟩ := h
  rw [pivotStep]
  have hu1 : Shapes n (st.1.set r ((st.1.getD r []).map (fun t => t / idx st.1 r r)),
      setIdx st.2 r r (idx st.1 r r)) := by
    refine ⟨by simpa using h1,
      rows_set_length h2 (by simpa using getD_row_length h1 h2 hr) r,
      by simp [length_setIdx, h3], rows_setIdx_length h3 h4 r _ hr⟩
  have hshort :
      (((st.1.set r ((st.1.getD r []).map (fun t => t / idx st.1 r r))).getD r []).drop
        (r + 1)).length = n - (r + 1) := by
    rw [List.length_drop]
    rw [getD_row_length hu1.1 hu1.2.1 hr]
  apply foldl_elimRowStep_shapes hshort hr
  · intro b hb
    rw [List.mem_range'_1] at hb
    omega
  · exact hu1

lemma luLoop_shapes {n : ℕ} : ∀ (l : List ℕ) (st st2 : List (List ℚ) × List (List ℚ)),
    (∀ r ∈ l, r < n) → Shapes n st → luLoop n l st = some st2 → Shapes n st2 := by
  intro l
  induction l with
  | nil =>
    intro st st2 _ h heq
    rw [luLoop] at heq
    cases heq
    exact h
  | cons r rest ih =>
    intro st st2 hmem h heq
    rw [luLoop] at heq
    by_cases hz : idx st.1 r r = 0
    · rw [if_pos hz] at heq; cases heq
    · rw [if_neg hz] at heq
      exact ih _ _ (fun x hx => hmem x (List.mem_cons_of_mem r hx))
        (pivotStep_shapes (hmem r (List.mem_cons_self r rest)) h) heq

lemma lu_decompose_shapes {m : Matrix} {L U : Matrix} (h : WF m)
    (hlu : m.lu_decompose = some (L, U)) :
    m.l = m.w ∧ L = ⟨L.contents, m.l, m.w⟩ ∧ U = ⟨U.contents, m.l, m.w⟩ ∧
      WF L ∧ WF U := by
  by_cases hsq : m.l = m.w
  · rw [Matrix.lu_decompose, if_neg (not_not_intro hsq)] at hlu
    obtain ⟨hl1, hl2⟩ := h
    cases heq : luLoop m.l (List.range m.l) (m.contents, identityContents m.l) with
    | none => rw [heq] at hlu; cases hlu
    | some st =>
      obtain ⟨u, lo⟩ := st
      rw [heq] at hlu
      have hst : Shapes m.l (u, lo) := by
        apply luLoop_shapes (List.range m.l) _ _ (fun r hr => List.mem_range.mp hr)
          _ heq
        exact ⟨hl1, fun row hrow => (hl2 row hrow).trans hsq.symm,
          identityContents_length m.l, fun row hrow => identityContents_row_length row hrow⟩
      obtain ⟨hs1, hs2, hs3, hs4⟩ := hst
      simp only [Option.some.injEq, Prod.mk.injEq] at hlu
      obtain ⟨rfl, rfl⟩ := hlu
      refine ⟨hsq, rfl, rfl, ⟨hs3, fun row hrow => (hs4 row hrow).trans hsq⟩,
        ⟨hs1, fun row hrow => (hs2 row hrow).trans hsq⟩⟩
  · rw [Matrix.lu_decompose, if_pos hsq] at hlu
    cases hlu

lemma swapRows_shapes {n : ℕ} {m : List (List ℚ)} (hlen : m.length = n)
    (h : ∀ row ∈ m, row.length = n) {i j : ℕ} (hi : i < n) (hj : j < n) :
    (swapRows m i j).length = n ∧ ∀ row ∈ swapRows m i j, row.length = n := by
  rw [swapRows]
  constructor
  · simp [hlen]
  · apply rows_set_length
    · apply rows_set_length h (getD_row_length hlen h hi)
    · exact getD_row_length hlen h hj

lemma permMatrix_WF {n i j : ℕ} (hi : i < n) (hj : j < n) : WF (permMatrix n i j) := by
  obtain ⟨h1, h2⟩ := swapRows_shapes (identityContents_length n)
    (fun row hrow => identityContents_row_length row hrow) hi hj
  exact ⟨h1, h2⟩

lemma combos_bounds {n : ℕ} : ∀ p ∈ combos n, p.1 < n ∧ p.2 < n := by
  intro p hp
  simp only [combos, List.mem_flatMap, List.mem_map] at hp
  obtain ⟨i, hi, j, hj, rfl⟩ := hp
  have hj2 : j ∈ List.range n := List.mem_of_mem_drop hj
  exact ⟨List.mem_range.mp hi, List.mem_range.mp hj2⟩

lemma pluLoop_WF {n : ℕ} : ∀ (l : List (ℕ × ℕ)) (out : List (List ℚ)) (L U P : Matrix),
    (∀ p ∈ l, p.1 < n ∧ p.2 < n) → out.length = n → (∀ row ∈ out, row.length = n) →
    pluLoop n l out = some (L, U, P) → WF L ∧ WF U ∧ WF P := by
  intro l
  induction l with
  | nil => intro out L U P _ _ _ heq; cases heq
  | cons p rest ih =>
    intro out L U P hmem hlen hrows heq
    obtain ⟨i, j⟩ := p
    have hij := hmem (i, j) (List.mem_cons_self _ rest)
    obtain ⟨hsw1, hsw2⟩ := swapRows_shapes hlen hrows hij.1 hij.2
    rw [pluLoop] at heq
    cases hcase : Matrix.lu_decompose ⟨swapRows out i j, n, n⟩ with
    | some lu =>
      obtain ⟨lo, u⟩ := lu
      rw [hcase] at heq
      simp only [Option.some.injEq, Prod.mk.injEq] at heq
      obtain ⟨rfl, rfl, rfl⟩ := heq
      obtain ⟨_, _, _, hwfL, hwfU⟩ := lu_decompose_shapes ⟨hsw1, hsw2⟩ hcase
      exact ⟨hwfL, hwfU, permMatrix_WF hij.1 hij.2⟩
    | none =>
      rw [hcase] at heq
      exact ih _ L U P (fun x hx => hmem x (List.mem_cons_of_mem _ hx)) hsw1 hsw2 heq

lemma plu_decomposition_WF {m L U P : Matrix} (h : WF m)
    (hplu : m.plu_decomposition = some (L, U, P)) : WF L ∧ WF U ∧ WF P := by
  by_cases hsq : m.l = m.w
  · rw [Matrix.plu_decomposition, if_neg (not_not_intro hsq)] at hplu
    cases hcase : Matrix.lu_decompose m with
    | some lu =>
      obtain ⟨lo, u⟩ := lu
      rw [hcase] at hplu
      simp only [Option.some.injEq, Prod.mk.injEq] at hplu
      obtain ⟨rfl, rfl, rfl⟩ := hplu
      obtain ⟨_, _, _, hwfL, hwfU⟩ := lu_decompose_shapes h hcase
      refine ⟨hwfL, hwfU, identityContents_length m.l,
        fun row hrow => identityContents_row_length row hrow⟩
    | none =>
      rw [hcase] at hplu
      apply pluLoop_WF (combos m.w) m.contents L U P _ h.1
        (fun row hrow => (h.2 row hrow).trans hsq.symm) hplu
      intro p hp
      have := combos_bounds p hp
      omega
  · rw [Matrix.plu_decomposition, if_pos hsq] at hplu
    cases hplu

/-- C10: every Matrix produced by a public operation satisfies the
rectangularity invariant (`l` rows, each of length `w`); for the
decompositions this includes the rows the elimination loop rebuilds,
which stay of length `w` throughout. -/
theorem c10_all_outputs_wf :
    (∀ inner M, Matrix.new inner = some M → WF M) ∧
    (∀ n, WF (Matrix.identity n)) ∧
    (∀ l w, WF (Matrix.blank l w)) ∧
    (∀ a b M, Matrix.add a b = some M → WF M) ∧
    (∀ a b M, Matrix.mul a b = some M → WF M) ∧
    (∀ a c, WF (Matrix.smul a c)) ∧
    (∀ a c, WF (Matrix.div a c)) ∧
    (∀ m L U, WF m → Matrix.lu_decompose m = some (L, U) → WF L ∧ WF U) ∧
    (∀ m L U P, WF m → Matrix.plu_decomposition m = some (L, U, P) → WF L ∧ WF U ∧ WF P) := by
  refine ⟨?_, ?_, ?_, ?_, ?_, ?_, ?_, ?_, ?_⟩
  · intro inner M hM
    cases inner with
    | nil => cases hM
    | cons t rest =>
      rw [Matrix.new] at hM
      by_cases hall : ((t :: rest).all fun r => decide (r.length = t.length)) = true
      · rw [if_pos hall] at hM
        cases hM
        rw [List.all_eq_true] at hall
        exact ⟨rfl, fun row hrow => by simpa using hall row hrow⟩
      · rw [if_neg hall] at hM
        cases hM
  · intro n
    exact ⟨identityContents_length n, fun row hrow => identityContents_row_length row hrow⟩
  · intro l w
    exact ⟨by simp [Matrix.blank], fun row hrow => by
      rw [Matrix.blank] at hrow
      simp only [List.mem_replicate] at hrow
      simp [hrow.2, Matrix.blank]⟩
  · intro a b M hM
    rw [Matrix.add] at hM
    by_cases hc : a.l = b.l ∧ a.w = b.w
    · rw [if_pos hc] at hM
      cases hM
      exact grid_WF a.l a.w _
    · rw [if_neg hc] at hM; cases hM
  · intro a b M hM
    rw [Matrix.mul] at hM
    by_cases hc : a.w = b.l
    · rw [if_pos hc] at hM
      cases hM
      exact grid_WF a.l b.w _
    · rw [if_neg hc] at hM; cases hM
  · intro a c
    exact grid_WF a.l a.w _
  · intro a c
    exact grid_WF a.l a.w _
  · intro m L U hm hlu
    obtain ⟨_, _, _, hL, hU⟩ := lu_decompose_shapes hm hlu
    exact ⟨hL, hU⟩
  · intro m L U P hm hplu
    exact plu_decomposition_WF hm hplu

/-! Characterization of when the elimination loop aborts. -/

lemma luLoop_none_iff (n : ℕ) : ∀ (m k : ℕ) (st : List (List ℚ) × List (List ℚ)),
    luLoop n (List.range' k m) st = none ↔
      ∃ j < m, idx (iterSteps n k j st).1 (k + j) (k + j) = 0 := by
  intro m
  induction m with
  | zero =>
    intro k st
    simp [luLoop]
  | succ m ih =>
    intro k st
    rw [List.range'_succ, luLoop]
    by_cases hz : idx st.1 k k = 0
    · rw [if_pos hz]
      exact iff_of_true rfl ⟨0, Nat.succ_pos m, by simpa [iterSteps] using hz⟩
    · rw [if_neg hz, ih]
      constructor
      · rintro ⟨j, hj, hp⟩
        refine ⟨j + 1, by omega, ?_⟩
        have e : k + (j + 1) = k + 1 + j := by omega
        rw [e]
        exact hp
      · rintro ⟨j, hj, hp⟩
        cases j with
        | zero => exact absurd (by simpa [iterSteps] using hp) hz
        | succ j =>
          refine ⟨j, by omega, ?_⟩
          have e : k + 1 + j = k + (j + 1) := by omega
          rw [e]
          exact hp

/-- C7: `lu_decompose` returns `None` exactly when the input is not
square or some pivot entry (r, r) read at step r of the elimination
(that is, after the updates of the earlier pivot steps) is exactly
zero; the zero test of the embedding is exact equality, mirroring the
exact floating-point comparison `scale == 0.` of the source. -/
theorem c7_lu_none_iff (m : Matrix) :
    m.lu_decompose = none ↔ m.l ≠ m.w ∨ ∃ r < m.l, pivotAt m r = 0 := by
  have hrange : List.range m.l = List.range' 0 m.l := List.range_eq_range' m.l
  by_cases hsq : m.l = m.w
  · rw [Matrix.lu_decompose, if_neg (not_not_intro hsq)]
    have hloop := luLoop_none_iff m.l m.l 0 (m.contents, identityContents m.l)
    cases heq : luLoop m.l (List.range m.l) (m.contents, identityContents m.l) with
    | none =>
      rw [hrange] at heq
      apply iff_of_true rfl
      right
      obtain ⟨j, hj, hp⟩ := hloop.mp heq
      exact ⟨j, hj, by simpa [pivotAt, elimState] using hp⟩
    | some st =>
      obtain ⟨u, lo⟩ := st
      rw [hrange] at heq
      apply iff_of_false (by simp)
      rintro (h | ⟨r, hr, hp⟩)
      · exact h hsq
      · have hnone : luLoop m.l (List.range' 0 m.l) (m.contents, identityContents m.l) = none :=
          hloop.mpr ⟨r, hr, by simpa [pivotAt, elimState] using hp⟩
        rw [heq] at hnone
        cases hnone
  · rw [Matrix.lu_decompose, if_pos hsq]
    exact iff_of_true rfl (Or.inl hsq)

/-- Witness for C10: the LU factors of the worked example are
well-formed. -/
theorem c10_witness :
    WF (⟨[[4, 0], [6, -3/2]], 2, 2⟩ : Matrix) ∧ WF (⟨[[1, 3/4], [0, 1]], 2, 2⟩ : Matrix) :=
  c10_all_outputs_wf.2.2.2.2.2.2.2.1 mEx ⟨[[4, 0], [6, -3/2]], 2, 2⟩
    ⟨[[1, 3/4], [0, 1]], 2, 2⟩ (by decide) (by with_unfolding_all decide)

/-! Correctness of the elimination: lower times upper reconstructs
the input whenever the loop finishes. -/

lemma getD_set_row_self (m : List (List ℚ)) {r : ℕ} (v : List ℚ) (h : r < m.length) :
    (m.set r v).getD r [] = v := by
  simp [List.getD_eq_getElem?_getD, List.getElem?_set, h]

lemma getD_drop_q (l : List ℚ) (m q : ℕ) : (l.drop m).getD q 0 = l.getD (m + q) 0 := by
  simp [List.getD_eq_getElem?_getD, List.getElem?_drop]

lemma idx_eq_getElem {m : List (List ℚ)} {i j : ℕ} (hi : i < m.length)
    (hj : j < (m[i]).length) : idx m i j = m[i][j] := by
  rw [idx_of_getElem?, List.getElem?_eq_getElem hi]
  simp [List.getElem?_eq_getElem hj]

lemma newRow_entry (A short : List ℚ) (c : ℚ) {k n : ℕ} (j : ℕ) (hA : A.length = n)
    (hs : short.length = n - (k + 1)) (hj : j < n) :
    (List.replicate (k + 1) (0 : ℚ) ++ ((A.drop (k + 1)).zip short).map
        (fun p => p.1 - c * p.2)).getD j 0 =
      if j < k + 1 then 0 else A.getD j 0 - c * short.getD (j - (k + 1)) 0 := by
  rw [List.getD_eq_getElem?_getD, List.getElem?_append, List.length_replicate]
  by_cases hjk : j < k + 1
  · rw [if_pos hjk, if_pos hjk]
    simp [List.getElem?_replicate, hjk]
  · rw [if_neg hjk, if_neg hjk, List.getElem?_map]
    have hjA : j < A.length := by omega
    have hjs : j - (k + 1) < short.length := by omega
    have e1 : (A.drop (k + 1))[j - (k + 1)]? = A[j]? := by
      rw [List.getElem?_drop]
      congr 1
      omega
    have e2 : ((A.drop (k + 1)).zip short)[j - (k + 1)]? =
        some (A[j], short[j - (k + 1)]) := by
      rw [List.getElem?_zip_eq_some]
      exact ⟨by rw [e1]; exact List.getElem?_eq_getElem hjA,
        List.getElem?_eq_getElem hjs⟩
    rw [e2]
    simp [List.getD_eq_getElem?_getD, List.getElem?_eq_getElem hjA,
      List.getElem?_eq_getElem hjs]

lemma contents_eq_grid {m : Matrix} (h : WF m) :
    (List.range m.l).map (fun i => (List.range m.w).map (fun j => idx m.contents i j)) =
      m.contents := by
  obtain ⟨hlen, hrows⟩ := h
  apply List.ext_getElem?
  intro i
  rw [List.getElem?_map]
  by_cases hi : i < m.l
  · rw [List.getElem?_range hi]
    have hi2 : i < m.contents.length := by omega
    have hrow : (m.contents[i]).length = m.w := hrows _ (List.getElem_mem hi2)
    rw [List.getElem?_eq_getElem hi2]
    show some _ = some _
    congr 1
    apply List.ext_getElem?
    intro j
    rw [List.getElem?_map]
    by_cases hj : j < m.w
    · rw [List.getElem?_range hj, List.getElem?_eq_getElem (show j < (m.contents[i]).length by omega)]
      show some _ = some _
      congr 1
      exact idx_eq_getElem hi2 (by omega)
    · rw [List.getElem?_eq_none (by simpa using hj),
        List.getElem?_eq_none (by omega : (m.contents[i]).length ≤ j)]
      rfl
  · rw [List.getElem?_eq_none (by simpa using hi),
      List.getElem?_eq_none (by omega : m.contents.length ≤ i)]
    rfl

lemma mul_guard {a b : Matrix} (h : a.w = b.l) :
    Matrix.mul a b = some ⟨(List.range a.l).map (fun i => (List.range b.w).map (fun j =>
      (List.range a.w).foldl (fun acc t => acc + idx a.contents i t * idx b.contents t j) 0)),
      a.l, b.w⟩ := by
  rw [Matrix.mul, if_pos h]

lemma elimInv_base {M : List (List ℚ)} {n : ℕ} (h1 : M.length = n)
    (h2 : ∀ row ∈ M, row.length = n) :
    ElimInv M n 0 (M, identityContents n) := by
  refine ⟨⟨h1, h2, identityContents_length n,
    fun r hr => identityContents_row_length r hr⟩, ?_, ?_, ?_⟩
  · intro i hi j hj
    rw [prodEntry]
    have e : ∀ t ∈ Finset.range n, idx (identityContents n) i t * idx M t j
        = if i = t then idx M t j else 0 := by
      intro t ht
      rw [idx_identityContents hi (Finset.mem_range.mp ht)]
      split <;> simp
    rw [Finset.sum_congr rfl e, Finset.sum_ite_eq]
    simp [Finset.mem_range.mpr hi]
  · intro i hi t _ ht2
    exact idx_identityContents hi ht2
  · intro i _ _ j hj
    omega

lemma innerInv_update {M : List (List ℚ)} {n k : ℕ} {short : List ℚ} {b : ℕ}
    {st2 : List (List ℚ) × List (List ℚ)} (h : InnerInv M n k short b st2)
    (hk : k < n) (hb1 : k < b) (hb2 : b < n) (NR : List ℚ) (hNRlen : NR.length = n)
    (hNRval : ∀ j < n, NR.getD j 0 = idx st2.1 b j - idx st2.1 b k * idx st2.1 k j) :
    InnerInv M n k short (b + 1) (st2.1.set b NR, setIdx st2.2 b k (idx st2.1 b k)) := by
  obtain ⟨⟨hs1, hs2, hs3, hs4⟩, hprod, hLgt, hLk, hUk0, hUkk, hUun, hUpr, hslen, hsval⟩ := h
  have hbU : b < st2.1.length := by omega
  have hbL : b < st2.2.length := by omega
  have hkb : k ≠ b := by omega
  have hbk : b ≠ k := by omega
  have hkrowL : k < (st2.2.getD b []).length := by
    rw [getD_row_length hs3 hs4 hb2]
    omega
  have hUset : ∀ j, idx (st2.1.set b NR) b j = NR.getD j 0 :=
    fun j => idx_set_self _ _ _ hbU
  have hUne : ∀ i, i ≠ b → ∀ j, idx (st2.1.set b NR) i j = idx st2.1 i j :=
    fun i hi j => idx_set_ne _ _ _ j hi
  have hLne : ∀ i, i ≠ b → ∀ j, idx (setIdx st2.2 b k (idx st2.1 b k)) i j = idx st2.2 i j :=
    fun i hi j => idx_setIdx_row_ne _ _ _ _ j hi
  have hLcolne : ∀ i j, j ≠ k →
      idx (setIdx st2.2 b k (idx st2.1 b k)) i j = idx st2.2 i j :=
    fun i j hj => idx_setIdx_col_ne _ _ _ _ i hj
  have hLself : idx (setIdx st2.2 b k (idx st2.1 b k)) b k = idx st2.1 b k :=
    idx_setIdx_self _ _ hbL hkrowL
  refine ⟨⟨by simpa using hs1, rows_set_length hs2 hNRlen b,
    by simp [length_setIdx, hs3], rows_setIdx_length hs3 hs4 k _ hb2⟩,
    ?_, ?_, ?_, ?_, ?_, ?_, ?_, hslen, ?_⟩
  · intro i hi j hj
    rw [← hprod i hi j hj]
    simp only [prodEntry]
    by_cases hib : i = b
    · rw [hib]
      have hsplit : ∀ t ∈ Finset.range n,
          idx (setIdx st2.2 b k (idx st2.1 b k)) b t * idx (st2.1.set b NR) t j
          = idx st2.2 b t * idx st2.1 t j
            + (if t = k then idx st2.1 b k * idx st2.1 k j else 0)
            + (if t = b then -(idx st2.1 b k * idx st2.1 k j) else 0) := by
        intro t ht
        have htn := Finset.mem_range.mp ht
        by_cases htk : t = k
        · rw [htk, hLself, hUne k hkb j, hLk b le_rfl hb2, if_pos rfl, if_neg hkb]
          ring
        · by_cases htb : t = b
          · rw [htb, hLcolne b b hbk, hUset j, hNRval j hj, hLgt b hb2 b hb1 hb2,
              if_neg hbk, if_pos rfl, if_pos rfl]
            ring
          · rw [hLcolne b t htk, hUne t htb j, if_neg htk, if_neg htb]
            ring
      rw [Finset.sum_congr rfl hsplit, Finset.sum_add_distrib, Finset.sum_add_distrib,
        Finset.sum_ite_eq', Finset.sum_ite_eq',
        if_pos (Finset.mem_range.mpr (show k < n by omega)),
        if_pos (Finset.mem_range.mpr hb2)]
      ring
    · apply Finset.sum_congr rfl
      intro t ht
      by_cases htb : t = b
      · rw [htb, hLne i hib b, hUset j, hLgt i hi b hb1 hb2, if_neg hib]
        ring
      · rw [hLne i hib t, hUne t htb j]
  · intro i hi t htk htn
    have htkk : t ≠ k := by omega
    rw [hLcolne i t htkk]
    exact hLgt i hi t htk htn
  · intro i hi1 hi2
    rw [hLne i (by omega) k]
    exact hLk i (by omega) hi2
  · intro j hj
    rw [hUne k hkb j]
    exact hUk0 j hj
  · rw [hUne k hkb k]
    exact hUkk
  · intro i hi1 hi2 j hj
    rw [hUne i (by omega) j]
    exact hUun i (by omega) hi2 j hj
  · intro i hi1 hi2 j hj
    by_cases hib : i = b
    · rw [hib, hUset j, hNRval j (by omega)]
      rcases Nat.lt_or_ge j k with hjk | hjk
      · rw [hUun b le_rfl hb2 j hjk, hUk0 j hjk]
        ring
      · have hjk2 : j = k := by omega
        rw [hjk2, hUkk]
        ring
    · rw [hUne i hib j]
      exact hUpr i hi1 (by omega) j hj
  · intro j hj1 hj2
    rw [hUne k hkb j]
    exact hsval j hj1 hj2

lemma elimRowStep_innerInv {M : List (List ℚ)} {n k : ℕ} {short : List ℚ} {b : ℕ}
    {st2 : List (List ℚ) × List (List ℚ)} (h : InnerInv M n k short b st2)
    (hk : k < n) (hb1 : k < b) (hb2 : b < n) :
    InnerInv M n k short (b + 1) (elimRowStep k short st2 b) := by
  have h' := h
  obtain ⟨⟨hs1, hs2, hs3, hs4⟩, hprod, hLgt, hLk, hUk0, hUkk, hUun, hUpr, hslen, hsval⟩ := h'
  by_cases hz : idx st2.1 b k = 0
  · have hstep : elimRowStep k short st2 b = st2 := by
      simp only [elimRowStep]
      rw [if_pos hz]
    rw [hstep]
    refine ⟨⟨hs1, hs2, hs3, hs4⟩, hprod, hLgt, ?_, hUk0, hUkk, ?_, ?_, hslen, hsval⟩
    · intro i hi1 hi2
      exact hLk i (by omega) hi2
    · intro i hi1 hi2 j hj
      exact hUun i (by omega) hi2 j hj
    · intro i hi1 hi2 j hj
      by_cases hib : i = b
      · rw [hib]
        rcases Nat.lt_or_ge j k with hjk | hjk
        · exact hUun b le_rfl hb2 j hjk
        · have hjk2 : j = k := by omega
          rw [hjk2]
          exact hz
      · exact hUpr i hi1 (by omega) j hj
  · have hrowlen : (st2.1.getD b []).length = n := getD_row_length hs1 hs2 hb2
    have hstep : elimRowStep k short st2 b =
        (st2.1.set b (List.replicate (k + 1) (0 : ℚ) ++
          (((st2.1.getD b []).drop (k + 1)).zip short).map
            (fun p => p.1 - idx st2.1 b k * p.2)),
         setIdx st2.2 b k (idx st2.1 b k)) := by
      simp only [elimRowStep]
      rw [if_neg hz]
    rw [hstep]
    apply innerInv_update h hk hb1 hb2
    · simp only [List.length_append, List.length_replicate, List.length_map,
        List.length_zip, List.length_drop, hrowlen, hslen, inf_idem]
      omega
    · intro j hj
      rw [newRow_entry _ _ _ j hrowlen hslen hj]
      by_cases hjk : j < k + 1
      · rw [if_pos hjk]
        rcases Nat.lt_or_ge j k with hjk2 | hjk2
        · rw [hUun b le_rfl hb2 j hjk2, hUk0 j hjk2]
          ring
        · have hjk3 : j = k := by omega
          rw [hjk3, hUkk]
          ring
      · rw [if_neg hjk, hsval j (by omega) hj]
        rfl

lemma foldl_elimRowStep_innerInv {M : List (List ℚ)} {n k : ℕ} {short : List ℚ}
    (hk : k < n) : ∀ (m b : ℕ) (st2 : List (List ℚ) × List (List ℚ)), b + m = n →
    k < b → InnerInv M n k short b st2 →
    InnerInv M n k short n ((List.range' b m).foldl (elimRowStep k short) st2) := by
  intro m
  induction m with
  | zero =>
    intro b st2 hbm hkb h
    have hb : b = n := by omega
    rw [hb] at h
    simpa using h
  | succ m ih =>
    intro b st2 hbm hkb h
    rw [List.range'_succ, List.foldl_cons]
    exact ih (b + 1) _ (by omega) (by omega) (elimRowStep_innerInv h hk hkb (by omega))

lemma pivotStep_elimInv {M : List (List ℚ)} {n k : ℕ}
    {st : List (List ℚ) × List (List ℚ)} (h : ElimInv M n k st) (hk : k < n)
    (hz : idx st.1 k k ≠ 0) : ElimInv M n (k + 1) (pivotStep n k st) := by
  obtain ⟨⟨hs1, hs2, hs3, hs4⟩, hprod, hL, hU⟩ := h
  have hkU : k < st.1.length := by omega
  have hkL : k < st.2.length := by omega
  have hrowlen : (st.1.getD k []).length = n := getD_row_length hs1 hs2 hk
  have hkrowL : k < (st.2.getD k []).length := by
    rw [getD_row_length hs3 hs4 hk]
    omega
  have hu1row : (st.1.set k ((st.1.getD k []).map (fun t => t / idx st.1 k k))).getD k []
      = (st.1.getD k []).map (fun t => t / idx st.1 k k) :=
    getD_set_row_self _ _ hkU
  have hu1self : ∀ j, j < n →
      idx (st.1.set k ((st.1.getD k []).map (fun t => t / idx st.1 k k))) k j
        = idx st.1 k j / idx st.1 k k := by
    intro j hj
    rw [idx_set_self _ _ _ hkU, getD_map_div _ _ (show j < (st.1.getD k []).length by omega)]
    rfl
  have hu1ne : ∀ i, i ≠ k → ∀ j,
      idx (st.1.set k ((st.1.getD k []).map (fun t => t / idx st.1 k k))) i j
        = idx st.1 i j :=
    fun i hi j => idx_set_ne _ _ _ j hi
  have hlo1ne : ∀ i, i ≠ k → ∀ j,
      idx (setIdx st.2 k k (idx st.1 k k)) i j = idx st.2 i j :=
    fun i hi j => idx_setIdx_row_ne _ _ _ _ j hi
  have hlo1colne : ∀ i j, j ≠ k →
      idx (setIdx st.2 k k (idx st.1 k k)) i j = idx st.2 i j :=
    fun i j hj => idx_setIdx_col_ne _ _ _ _ i hj
  have hlo1self : idx (setIdx st.2 k k (idx st.1 k k)) k k = idx st.1 k k :=
    idx_setIdx_self _ _ hkL hkrowL
  have hshortlen :
      (((st.1.set k ((st.1.getD k []).map (fun t => t / idx st.1 k k))).getD k []).drop
        (k + 1)).length = n - (k + 1) := by
    rw [hu1row, List.length_drop, List.length_map, hrowlen]
  have hinner : InnerInv M n k
      (((st.1.set k ((st.1.getD k []).map (fun t => t / idx st.1 k k))).getD k []).drop (k + 1))
      (k + 1)
      (st.1.set k ((st.1.getD k []).map (fun t => t / idx st.1 k k)),
       setIdx st.2 k k (idx st.1 k k)) := by
    refine ⟨⟨by simpa using hs1,
      rows_set_length hs2 (by rw [List.length_map, hrowlen]) k,
      by simp [length_setIdx, hs3], rows_setIdx_length hs3 hs4 k _ hk⟩,
      ?_, ?_, ?_, ?_, ?_, ?_, ?_, hshortlen, ?_⟩
    · intro i hi j hj
      rw [← hprod i hi j hj]
      simp only [prodEntry]
      apply Finset.sum_congr rfl
      intro t ht
      have htn := Finset.mem_range.mp ht
      by_cases htk : t = k
      · rw [htk, hu1self j hj]
        by_cases hik : i = k
        · rw [hik, hlo1self, hL k hk k le_rfl hk, if_pos rfl,
            mul_comm (idx st.1 k k), div_mul_cancel₀ _ hz, one_mul]
        · rw [hlo1ne i hik k, hL i hi k le_rfl hk, if_neg hik]
          ring
      · rw [hu1ne t htk j, hlo1colne i t htk]
    · intro i hi t htk htn
      rw [hlo1colne i t (by omega)]
      exact hL i hi t (by omega) htn
    · intro i hi1 hi2
      rw [hlo1ne i (by omega) k, hL i hi2 k le_rfl hk,
        if_neg (show ¬ i = k by omega)]
    · intro j hj
      rw [hu1self j (by omega), hU k le_rfl hk j hj, zero_div]
    · rw [hu1self k hk, div_self hz]
    · intro i hi1 hi2 j hj
      rw [hu1ne i (by omega) j]
      exact hU i (by omega) hi2 j hj
    · intro i hi1 hi2 j hj
      omega
    · intro j hj1 hj2
      rw [hu1row, getD_drop_q]
      have e : k + 1 + (j - (k + 1)) = j := by omega
      rw [e, ← hu1row]
      rw [idx_set_self _ _ _ hkU, hu1row]
  have hfold := foldl_elimRowStep_innerInv hk (n - (k + 1)) (k + 1) _ (by omega)
    (by omega) hinner
  obtain ⟨hsh, hprod2, hLgt2, _, _, _, _, hUpr2, _, _⟩ := hfold
  simp only [pivotStep]
  refine ⟨hsh, hprod2, ?_, ?_⟩
  · intro i hi t ht1 ht2
    exact hLgt2 i hi t (by omega) ht2
  · intro i hi1 hi2 j hj
    exact hUpr2 i (by omega) hi2 j (by omega)

lemma luLoop_elimInv {M : List (List ℚ)} {n : ℕ} : ∀ (m k : ℕ)
    (st st2 : List (List ℚ) × List (List ℚ)), k + m = n → ElimInv M n k st →
    luLoop n (List.range' k m) st = some st2 → ElimInv M n n st2 := by
  intro m
  induction m with
  | zero =>
    intro k st st2 hkm h heq
    simp only [List.range'_zero, luLoop, Option.some.injEq] at heq
    have hk : k = n := by omega
    rw [hk] at h
    rw [← heq]
    exact h
  | succ m ih =>
    intro k st st2 hkm h heq
    rw [List.range'_succ] at heq
    simp only [luLoop] at heq
    by_cases hz : idx st.1 k k = 0
    · rw [if_pos hz] at heq
      cases heq
    · rw [if_neg hz] at heq
      exact ih (k + 1) _ st2 (by omega) (pivotStep_elimInv h (by omega) hz) heq

/-- C2: whenever `lu_decompose` succeeds on a well-formed square
matrix, the product of the returned lower and upper factors is
exactly the input matrix; the rational embedding models the exact
arithmetic reading of the claim, of which the floating-point
tolerance statement is the rounded version. -/
theorem c2_lu_product (m L U : Matrix) (hwf : WF m)
    (hlu : m.lu_decompose = some (L, U)) : Matrix.mul L U = some m := by
  by_cases hsq : m.l = m.w
  · rw [Matrix.lu_decompose, if_neg (not_not_intro hsq)] at hlu
    cases heq : luLoop m.l (List.range m.l) (m.contents, identityContents m.l) with
    | none =>
      rw [heq] at hlu
      cases hlu
    | some st =>
      obtain ⟨u, lo⟩ := st
      rw [heq] at hlu
      simp only [Option.some.injEq, Prod.mk.injEq] at hlu
      obtain ⟨rfl, rfl⟩ := hlu
      have hbase : ElimInv m.contents m.l 0 (m.contents, identityContents m.l) :=
        elimInv_base hwf.1 (fun row hr => (hwf.2 row hr).trans hsq.symm)
      rw [List.range_eq_range'] at heq
      have hfin := luLoop_elimInv m.l 0 _ _ (by omega) hbase heq
      obtain ⟨hsh, hprod, _, _⟩ := hfin
      rw [mul_guard (show (⟨lo, m.l, m.w⟩ : Matrix).w = (⟨u, m.l, m.w⟩ : Matrix).l
        from hsq.symm)]
      show some (⟨(List.range m.l).map (fun i => (List.range m.w).map (fun j =>
        (List.range m.w).foldl (fun acc t => acc + idx lo i t * idx u t j) 0)),
        m.l, m.w⟩ : Matrix) = some m
      have egrid : (List.range m.l).map (fun i => (List.range m.w).map (fun j =>
            (List.range m.w).foldl (fun acc t => acc + idx lo i t * idx u t j) 0)) =
          (List.range m.l).map (fun i =>
            (List.range m.w).map (fun j => idx m.contents i j)) := by
        apply grid_congr
        intro i hi j hj
        rw [foldl_add_eq_sum, zero_add, ← hsq]
        exact hprod i hi j (by omega)
      rw [egrid, contents_eq_grid hwf]
  · rw [Matrix.lu_decompose, if_pos hsq] at hlu
    cases hlu

/-- Witness for C2 at the worked example. -/
theorem c2_witness :
    Matrix.mul ⟨[[4, 0], [6, -3/2]], 2, 2⟩ ⟨[[1, 3/4], [0, 1]], 2, 2⟩ = some mEx :=
  c2_lu_product mEx ⟨[[4, 0], [6, -3/2]], 2, 2⟩ ⟨[[1, 3/4], [0, 1]], 2, 2⟩
    (by decide) (by with_unfolding_all decide)

end LinAlg
